import Mathlib

/-!
Verification of the HCP masking pipeline orchestrator
(`pipeline/hcp_masking_pipeline.py`, `hcp/hcp_masking_pipeline.py`,
`pipeline/config_parser.py`, `pipeline/run_pipeline.py`).

Python strings are embedded as `List Char` (named `Line` below); file
contents are a single `List Char`; machine behaviour that shells out to
`aws` is modelled as emitted commands, since the remote object store is an
external collaborator of the orchestrator.
-/

namespace HcpPipeline

/-- A python string (one line of text, a path, a subject token, ...). -/
abbrev Line : Type := List Char

/-! ## Python whitespace and stripping

`str.strip` / `str.rstrip` remove the python whitespace characters from the
ends of a string.  These model the `line.strip()` in `_get_caselist`, the
`output.strip()` in `does_exist`, and the `line.rstrip()` in
`_create_input_text`. -/

/-- The characters python's `str.strip` family treats as whitespace. -/
def pyIsSpace (c : Char) : Bool :=
  c = ' ' || c = '\t' || c = '\n' || c = '\r' || c = '\x0b' || c = '\x0c'

/-- Python `str.lstrip()` (no argument): drop leading whitespace. -/
def lstrip (s : Line) : Line := s.dropWhile pyIsSpace

/-- Python `str.rstrip()` (no argument): drop trailing whitespace. -/
def rstrip (s : Line) : Line := (s.reverse.dropWhile pyIsSpace).reverse

/-- Python `str.strip()` (no argument): drop whitespace at both ends. -/
def pyStrip (s : Line) : Line := rstrip (lstrip s)

/-! ## The batch loop of `HcpMaskingPipeline.run_pipeline`
(`pipeline/hcp_masking_pipeline.py`, lines 562-617)

```
while len(self.subjects_to_process) > 0:
    if len(self.subjects_to_process) < self.batch_size:
        self.batch_size = len(self.subjects_to_process)
    subjects_to_process = self.subjects_to_process[:self.batch_size]
    self.subjects_to_process = self.subjects_to_process[self.batch_size:]
    ...
```

Each turn of the loop pops a batch off the front of the backlog; when fewer
subjects than `batch_size` remain, `batch_size` is shrunk to the remainder.
The recursion is driven by a fuel argument equal to the initial backlog
length; whenever `batch_size ≥ 1` each turn consumes at least one subject,
so that fuel is always sufficient and the embedding computes exactly the
batches the loop processes. -/

/-- One step of the `while` loop, with explicit fuel. -/
def runBatchesAux : Nat → List Line → Nat → List (List Line)
  | 0, _, _ => []
  | fuel + 1, subjects, batchSize =>
    if subjects.length = 0 then []
    else
      let b' := if subjects.length < batchSize then subjects.length else batchSize
      subjects.take b' :: runBatchesAux fuel (subjects.drop b') b'

/-- The list of batches `run_pipeline` processes, in order, from a backlog
`subjects` and a configured `batch_size`. -/
def runBatches (subjects : List Line) (batchSize : Nat) : List (List Line) :=
  runBatchesAux subjects.length subjects batchSize

lemma runBatchesAux_nil (fuel b : Nat) : runBatchesAux fuel [] b = [] := by
  cases fuel <;> simp [runBatchesAux]

lemma runBatchesAux_spec (fuel : Nat) :
    ∀ (subjects : List Line) (b : Nat), 1 ≤ b → subjects.length ≤ fuel →
      (runBatchesAux fuel subjects b).flatten = subjects ∧
      (∀ batch ∈ runBatchesAux fuel subjects b, batch.length ≤ b) ∧
      (∀ batch ∈ (runBatchesAux fuel subjects b).dropLast, batch.length = b) ∧
      (subjects = [] → runBatchesAux fuel subjects b = []) ∧
      (subjects ≠ [] → runBatchesAux fuel subjects b ≠ []) ∧
      (subjects ≠ [] → ∃ lb, (runBatchesAux fuel subjects b).getLast? = some lb ∧
          lb.length = if subjects.length % b = 0 then b else subjects.length % b) := by
  induction fuel with
  | zero =>
    intro subjects b _ hlen
    have hs : subjects = [] := List.length_eq_zero.mp (Nat.le_zero.mp hlen)
    subst hs
    simp [runBatchesAux]
  | succ f ih =>
    intro subjects b hb hlen
    by_cases hs : subjects = []
    · subst hs; simp [runBatchesAux_nil]
    · have hn : 0 < subjects.length := List.length_pos.mpr hs
      by_cases hlt : subjects.length < b
      · -- final, shrunken batch: the whole remaining backlog
        have hres : runBatchesAux (f + 1) subjects b = [subjects] := by
          simp only [runBatchesAux, if_neg (Nat.pos_iff_ne_zero.mp hn), if_pos hlt]
          simp [runBatchesAux_nil]
        rw [hres]
        have hmod : subjects.length % b = subjects.length := Nat.mod_eq_of_lt hlt
        refine ⟨by simp, ?_, by simp, by simp [hs], by simp, ?_⟩
        · intro batch hbatch
          simp only [List.mem_singleton] at hbatch
          subst hbatch
          exact Nat.le_of_lt hlt
        · intro _
          refine ⟨subjects, by simp, ?_⟩
          rw [hmod, if_neg (by omega)]
      · -- a full batch of size b is taken from the front
        have hble : b ≤ subjects.length := Nat.le_of_not_lt hlt
        have hres : runBatchesAux (f + 1) subjects b =
            subjects.take b :: runBatchesAux f (subjects.drop b) b := by
          simp only [runBatchesAux, if_neg (Nat.pos_iff_ne_zero.mp hn), if_neg hlt]
        have hdroplen : (subjects.drop b).length ≤ f := by
          rw [List.length_drop]; omega
        obtain ⟨ihflat, ihsize, ihinit, ihnil, ihnenil, ihlast⟩ :=
          ih (subjects.drop b) b hb hdroplen
        have htake : (subjects.take b).length = b := by
          rw [List.length_take]; omega
        rw [hres]
        by_cases hrest : subjects.drop b = []
        · -- the backlog length was exactly b: one final full batch
          have hbeq : subjects.length = b := by
            have := List.length_eq_zero.mpr hrest
            rw [List.length_drop] at this; omega
          have htakeall : subjects.take b = subjects :=
            List.take_of_length_le (by omega)
          rw [ihnil hrest, htakeall]
          refine ⟨by simp, ?_, by simp, by simp [hs], by simp, ?_⟩
          · intro batch hbatch
            simp only [List.mem_singleton] at hbatch
            subst hbatch; omega
          · intro _
            exact ⟨subjects, by simp, by rw [hbeq, Nat.mod_self, if_pos rfl]⟩
        · -- more subjects remain after this batch
          have htail : runBatchesAux f (subjects.drop b) b ≠ [] := ihnenil hrest
          constructor
          · simp only [List.flatten_cons, ihflat, List.take_append_drop]
          constructor
          · intro batch hbatch
            rcases List.mem_cons.mp hbatch with h | h
            · subst h; omega
            · exact ihsize batch h
          constructor
          · intro batch hbatch
            obtain ⟨x, xs, hcons⟩ := List.exists_cons_of_ne_nil htail
            rw [hcons] at hbatch
            rw [List.dropLast_cons₂] at hbatch
            rcases List.mem_cons.mp hbatch with h | h
            · subst h; exact htake
            · exact ihinit batch (by rw [hcons]; exact h)
          refine ⟨by simp [hs], by simp, ?_⟩
          intro _
          obtain ⟨lb, hlb, hlblen⟩ := ihlast hrest
          refine ⟨lb, ?_, ?_⟩
          · obtain ⟨x, xs, hcons⟩ := List.exists_cons_of_ne_nil htail
            rw [hcons, List.getLast?_cons_cons, ← hcons, hlb]
          · rw [hlblen, List.length_drop]
            have hmod : (subjects.length - b) % b = subjects.length % b := by
              conv_rhs => rw [← Nat.sub_add_cancel hble]
              rw [Nat.add_mod_right]
            rw [hmod]

/-- Claim C1: `run_pipeline` partitions the backlog into consecutive batches
taken from the front in case-list order (their concatenation is the
backlog, so every subject is in exactly one batch); no batch exceeds the
configured size, every batch but the last has exactly the configured size,
the final batch has size `n % b` when that is nonzero and `b` otherwise,
and the batch list is empty exactly when the backlog is empty (the loop
terminates only there). -/
theorem run_pipeline_batching (subjects : List Line) (b : Nat) (hb : 1 ≤ b) :
    (runBatches subjects b).flatten = subjects ∧
    (∀ batch ∈ runBatches subjects b, batch.length ≤ b) ∧
    (∀ batch ∈ (runBatches subjects b).dropLast, batch.length = b) ∧
    (subjects ≠ [] → ∃ lb, (runBatches subjects b).getLast? = some lb ∧
        lb.length = if subjects.length % b = 0 then b else subjects.length % b) ∧
    (runBatches subjects b = [] ↔ subjects = []) := by
  obtain ⟨hflat, hsize, hinit, hnil, hnenil, hlast⟩ :=
    runBatchesAux_spec subjects.length subjects b hb le_rfl
  exact ⟨hflat, hsize, hinit, hlast, ⟨fun h => by_contra fun hs => hnenil hs h, hnil⟩⟩

/-- Witness for C1 at a concrete backlog of five subjects and batch size 2:
the hypothesis `1 ≤ 2` holds and the theorem applies. -/
theorem run_pipeline_batching_witness :
    1 ≤ 2 ∧
      ((runBatches [['a'], ['b'], ['c'], ['d'], ['e']] 2).flatten =
          [['a'], ['b'], ['c'], ['d'], ['e']] ∧
        (∀ batch ∈ runBatches [['a'], ['b'], ['c'], ['d'], ['e']] 2, batch.length ≤ 2) ∧
        (∀ batch ∈ (runBatches [['a'], ['b'], ['c'], ['d'], ['e']] 2).dropLast,
            batch.length = 2) ∧
        ([['a'], ['b'], ['c'], ['d'], ['e']] ≠ ([] : List Line) →
          ∃ lb, (runBatches [['a'], ['b'], ['c'], ['d'], ['e']] 2).getLast? = some lb ∧
            lb.length = if [['a'], ['b'], ['c'], ['d'], ['e']].length % 2 = 0 then 2
              else [['a'], ['b'], ['c'], ['d'], ['e']].length % 2) ∧
        (runBatches [['a'], ['b'], ['c'], ['d'], ['e']] 2 = [] ↔
          [['a'], ['b'], ['c'], ['d'], ['e']] = ([] : List Line))) :=
  ⟨by decide, run_pipeline_batching [['a'], ['b'], ['c'], ['d'], ['e']] 2 (by decide)⟩

/-! ## `HcpMaskingPipeline._get_caselist`
(`pipeline/hcp_masking_pipeline.py`, lines 254-283)

```
caselist = []
with open(self.caselist_file, 'r') as f:
    for line in f:
        line = line.strip()
        if line and not line.startswith('#'):
            caselist.append(line)
if end_index is None:
    end_index = len(caselist)
caselist = caselist[start_index - 1:end_index]
```

The raw file lines are stripped, blank lines and `#`-comments are dropped,
and a python slice `[start_index - 1 : end_index]` is applied.  Python
slicing never raises: out-of-range bounds are clamped, and negative bounds
index from the end of the list. -/

/-- The filter of `_get_caselist`: keep a stripped line iff it is nonempty
and does not start with `#`. -/
def caselistKeep (l : Line) : Bool :=
  match l with
  | [] => false
  | c :: _ => decide (c ≠ '#')

/-- The comment/blank filtering pass of `_get_caselist` over the raw file
lines. -/
def caselistFilter (lines : List Line) : List Line :=
  (lines.map pyStrip).filter caselistKeep

/-- Clamp one python slice bound to an index into a list of length `n`:
negative bounds count from the end, bounds past either end are clamped. -/
def pyIndex (n : Nat) (i : Int) : Nat :=
  if i < 0 then ((n : Int) + i).toNat else min i.toNat n

/-- Python `l[a:b]` (step 1). -/
def pySlice (l : List Line) (a b : Int) : List Line :=
  let a' := pyIndex l.length a
  let b' := pyIndex l.length b
  (l.drop a').take (b' - a')

/-- Embedding of `HcpMaskingPipeline._get_caselist`, over the raw lines of the caselist
file: filter, default the end index to the filtered length, slice. -/
def getCaselist (lines : List Line) (startIndex : Int) (endIndex : Option Int) :
    List Line :=
  let caselist := caselistFilter lines
  let e : Int := match endIndex with
    | none => caselist.length
    | some v => v
  pySlice caselist (startIndex - 1) e

/-- The function `_get_caselist` viewed through `Except`: the source contains no `raise`
on this path and python slicing cannot fail, so every call returns
normally; the error type records what a `RangeError` would be. -/
def getCaselistE (lines : List Line) (startIndex : Int) (endIndex : Option Int) :
    Except String (List Line) :=
  Except.ok (getCaselist lines startIndex endIndex)

/-- Claim C2: For a valid window (`1 ≤ start`, `start ≤ end`, and `start`
within the filtered list), `_get_caselist` returns exactly
`min end totalLines - start + 1` entries, where `totalLines` counts the
lines surviving comment/blank filtering, and the result is a contiguous
sub-sequence (an infix) of the filtered lines in file order. -/
theorem get_caselist_window (lines : List Line) (s e : Int)
    (hs : 1 ≤ s) (hse : s ≤ e) (hin : s ≤ ((caselistFilter lines).length : Int)) :
    ((getCaselist lines s (some e)).length : Int) =
        min e ((caselistFilter lines).length : Int) - s + 1 ∧
      (getCaselist lines s (some e)) <:+: caselistFilter lines := by
  constructor
  · have h1 : pyIndex (caselistFilter lines).length (s - 1) =
        min (s - 1).toNat (caselistFilter lines).length := if_neg (by omega)
    have h2 : pyIndex (caselistFilter lines).length e =
        min e.toNat (caselistFilter lines).length := if_neg (by omega)
    simp only [getCaselist, pySlice, h1, h2, List.length_take, List.length_drop]
    omega
  · have hp := List.take_prefix
      (pyIndex (caselistFilter lines).length e -
        pyIndex (caselistFilter lines).length (s - 1))
      ((caselistFilter lines).drop (pyIndex (caselistFilter lines).length (s - 1)))
    have hsfx := List.drop_suffix (pyIndex (caselistFilter lines).length (s - 1))
      (caselistFilter lines)
    exact List.IsInfix.trans ( List.IsPrefix.isInfix hp) ( List.IsSuffix.isInfix hsfx)

/-- Witness for C2: on the three-line caselist `a, b, c` with window
`[1, 2]` all three hypotheses hold and the theorem applies. -/
theorem get_caselist_window_witness :
    (1 ≤ (1 : Int) ∧ (1 : Int) ≤ 2 ∧
        (1 : Int) ≤ ((caselistFilter [['a'], ['b'], ['c']]).length : Int)) ∧
      (((getCaselist [['a'], ['b'], ['c']] 1 (some 2)).length : Int) =
          min 2 ((caselistFilter [['a'], ['b'], ['c']]).length : Int) - 1 + 1 ∧
        (getCaselist [['a'], ['b'], ['c']] 1 (some 2)) <:+:
          caselistFilter [['a'], ['b'], ['c']]) :=
  ⟨⟨by decide, by decide, by decide⟩,
    get_caselist_window [['a'], ['b'], ['c']] 1 2 (by decide) (by decide) (by decide)⟩

/-- Counterexample to claim C6: With the filtered caselist `a, b, c` and the
invalid window `start = 0 < 1`, `end = 3`, `_get_caselist` does not fail
with any error: it returns normally, and python's negative-index slicing
(`caselist[-1:3]`) produces the wrongly-sliced list `[c]`. -/
theorem get_caselist_no_range_error :
    getCaselistE [['a'], ['b'], ['c']] 0 (some 3) = Except.ok [['c']] := by
  rfl

/-- Claim C6 amended: `_get_caselist` never raises.  For a window with both
bounds given, `1 ≤ start`, `0 ≤ end` and `start > end`, it returns the
empty list; for `start < 1` python's slice semantics apply instead of an
error (with `start = 0` the slice begins at the *last* filtered line, as in
the counterexample). -/
theorem get_caselist_bad_window_empty (lines : List Line) (s e : Int)
    (hs : 1 ≤ s) (he : 0 ≤ e) (hgt : e < s) :
    getCaselist lines s (some e) = [] ∧
      getCaselistE lines s (some e) = Except.ok [] := by
  have h1 : pyIndex (caselistFilter lines).length (s - 1) =
      min (s - 1).toNat (caselistFilter lines).length := if_neg (by omega)
  have h2 : pyIndex (caselistFilter lines).length e =
      min e.toNat (caselistFilter lines).length := if_neg (by omega)
  have hmain : getCaselist lines s (some e) = [] := by
    simp only [getCaselist, pySlice, h1, h2]
    have hz : min e.toNat (caselistFilter lines).length -
        min (s - 1).toNat (caselistFilter lines).length = 0 := by omega
    rw [hz, List.take_zero]
  exact ⟨hmain, by rw [getCaselistE, hmain]⟩

/-- Witness for C6's amended claim at `start = 2 > end = 1`. -/
theorem get_caselist_bad_window_empty_witness :
    ((1 : Int) ≤ 2 ∧ (0 : Int) ≤ 1 ∧ (1 : Int) < 2) ∧
      (getCaselist [['a'], ['b'], ['c']] 2 (some 1) = [] ∧
        getCaselistE [['a'], ['b'], ['c']] 2 (some 1) = Except.ok []) :=
  ⟨⟨by decide, by decide, by decide⟩,
    get_caselist_bad_window_empty [['a'], ['b'], ['c']] 2 1 (by decide) (by decide)
      (by decide)⟩

/-! ## `does_exist`
(`pipeline/hcp_masking_pipeline.py`, lines 43-60 and
`hcp/hcp_masking_pipeline.py`, lines 46-56)

Both variants shell out to `aws s3 ls <path>` and reduce the outcome of
that query to a single boolean.  A completed query is its observed return
code together with its captured standard output. -/

/-- The observable outcome of one `aws s3 ls` invocation. -/
structure QueryResult where
  returncode : Int
  output : Line
deriving DecidableEq

/-- Embedding of `does_exist` from `pipeline/hcp_masking_pipeline.py`: a nonzero return
code yields `False`; otherwise the stripped output must be nonempty.
(`Popen.communicate` never raises `CalledProcessError`, so the `except`
branch is dead.) -/
def does_exist (q : QueryResult) : Bool :=
  if q.returncode ≠ 0 then false
  else !(pyStrip q.output).isEmpty

/-- Embedding of `does_exist` from `hcp/hcp_masking_pipeline.py`: `check_output` raises
exactly when the return code is nonzero, so the function returns
`returncode == 0` regardless of the listing's output. -/
def does_exist_hcp (q : QueryResult) : Bool :=
  decide (q.returncode = 0)

/-- A query that succeeded but found nothing: return code 0, empty
output. -/
def absentQuery : QueryResult := ⟨0, []⟩

/-- Counterexample to claim C5: A failed query (return code 1, some diagnostic
output) produces exactly the same result -- `false` -- as a successful
query that found nothing, refuting the claim that no failed query can
coincide with an absent path. -/
theorem does_exist_conflates :
    does_exist ⟨1, ['e', 'r', 'r']⟩ = false ∧ does_exist absentQuery = false ∧
      does_exist ⟨1, ['e', 'r', 'r']⟩ = does_exist absentQuery := by
  decide

/-- Claim C5 amended: The existence check does not distinguish a failed
query from an absent path, and surfaces no fatal outcome: in the
`pipeline` variant every failed query (nonzero return code) yields `false`,
identical to a successful empty listing; the `hcp` variant conflates in the
opposite direction, returning `true` for every successful query even when
the listing is empty. -/
theorem does_exist_conflation (q : QueryResult) (hq : q.returncode ≠ 0) :
    does_exist q = false ∧ does_exist absentQuery = false ∧
      does_exist_hcp absentQuery = true := by
  refine ⟨?_, by decide, by decide⟩
  simp [does_exist, hq]

/-- Witness for C5's amended claim at return code 1. -/
theorem does_exist_conflation_witness :
    (1 : Int) ≠ 0 ∧
      (does_exist ⟨1, ['x']⟩ = false ∧ does_exist absentQuery = false ∧
        does_exist_hcp absentQuery = true) :=
  ⟨by decide, does_exist_conflation ⟨1, ['x']⟩ (by decide)⟩

/-! ## Subject-identifier normalization in `_get_subjects`
(`pipeline/hcp_masking_pipeline.py`, lines 285-302 and
`hcp/hcp_masking_pipeline.py`, lines 226-243)

```
if not re.search(self.appendage, subject):
    subject = subject + self.appendage
```

The `pipeline` variant searches for the configured appendage (used as a
literal pattern; `re.search` with a metacharacter-free pattern is substring
search) and appends it when absent.  The `hcp` variant searches for the
pattern `_V\d_MR` and appends the literal `_V1_MR`. -/

/-- Model of `re.search(pat, s)` for a literal pattern: does `pat` occur as a
contiguous substring of `s`? -/
def containsSub (pat s : Line) : Bool :=
  s.tails.any (fun t => pat.isPrefixOf t)

/-- The normalization step of `pipeline/hcp_masking_pipeline.py`'s
`_get_subjects`, parameterized by the configured appendage. -/
def pipNormalize (appendage subject : Line) : Line :=
  if containsSub appendage subject then subject else subject ++ appendage

/-- Does the regex `_V\d_MR` match at the head of `t`? -/
def vdMRAt (t : Line) : Bool :=
  match t with
  | '_' :: 'V' :: d :: '_' :: 'M' :: 'R' :: _ => d.isDigit
  | _ => false

/-- Model of the search `re.search` for `_V\d_MR` in `hcp/hcp_masking_pipeline.py`. -/
def containsVdMR (s : Line) : Bool :=
  s.tails.any vdMRAt

/-- The literal suffix `_V1_MR` appended by the `hcp` variant. -/
def v1MRSuffix : Line := ['_', 'V', '1', '_', 'M', 'R']

/-- The normalization step of `hcp/hcp_masking_pipeline.py`'s
`_get_subjects`. -/
def hcpNormalize (subject : Line) : Line :=
  if containsVdMR subject then subject else subject ++ v1MRSuffix

lemma containsSub_append_self (pat s : Line) : containsSub pat (s ++ pat) = true := by
  rw [containsSub, List.any_eq_true]
  exact ⟨pat, (List.mem_tails _ _).mpr (List.suffix_append s pat),
    List.isPrefixOf_iff_prefix.mpr (List.prefix_refl pat)⟩

lemma containsVdMR_append_suffix (s : Line) :
    containsVdMR (s ++ v1MRSuffix) = true := by
  rw [containsVdMR, List.any_eq_true]
  exact ⟨v1MRSuffix, (List.mem_tails _ _).mpr (List.suffix_append s v1MRSuffix),
    by decide⟩

/-- Claim C7: Appending the configured appendage only when a search for it in
the token fails is idempotent, in both variants: the `pipeline` variant for
every appendage and every token, and the `hcp` variant (pattern `_V\d_MR`,
literal `_V1_MR`) for every token. -/
theorem normalize_idempotent :
    (∀ appendage subject : Line,
        pipNormalize appendage (pipNormalize appendage subject) =
          pipNormalize appendage subject) ∧
      (∀ subject : Line,
        hcpNormalize (hcpNormalize subject) = hcpNormalize subject) := by
  constructor
  · intro appendage subject
    by_cases h : containsSub appendage subject
    · simp [pipNormalize, h]
    · simp only [pipNormalize, h, Bool.false_eq_true, if_false]
      rw [if_pos (containsSub_append_self appendage subject)]
  · intro subject
    by_cases h : containsVdMR subject
    · simp [hcpNormalize, h]
    · simp only [hcpNormalize, h, Bool.false_eq_true, if_false]
      rw [if_pos (containsVdMR_append_suffix subject)]

/-! ## `ConfigParser` and the multiprocessing branch
(`pipeline/config_parser.py`, lines 17-19;
`pipeline/hcp_masking_pipeline.py`, lines 201-227 and 577-582)

`ConfigParser.__getitem__` returns the stored value verbatim; the pipeline
reads `self.multiprocessing = self.config.get('multiprocessing')`
(`Mapping.get`, `None` when missing) and later branches on
`if self.multiprocessing:` -- python truthiness of an optional string. -/

/-- The flat key/value section a `ConfigParser` wraps. -/
abbrev Config : Type := List (String × String)

/-- Embedding of `ConfigParser.__getitem__`: the stored string, unmodified (here keyed
through `lookup`; a missing key raises in python and is `none` here). -/
def configGetItem (cfg : Config) (key : String) : Option String :=
  cfg.lookup key

/-- Embedding of `Mapping.get`, as used by `_set_class_fields_from_config`: the stored
string, or `None` when the key is missing. -/
def configGet (cfg : Config) (key : String) : Option String :=
  cfg.lookup key

/-- Python truthiness of `self.multiprocessing` (an optional string):
`None` and the empty string are falsy, every other string is truthy. -/
def pyTruthy : Option String → Bool
  | none => false
  | some s => !s.isEmpty

/-- The two copies of the transfer loop in `run_pipeline`. -/
inductive CopyPath : Type
  | pool
  | sequential
deriving DecidableEq

/-- The branch `if self.multiprocessing:` of `run_pipeline` (lines
577-582): truthy selects the multiprocessing pool, falsy the sequential
loop. -/
def copyBranch (multiprocessing : Option String) : CopyPath :=
  if pyTruthy multiprocessing then CopyPath.pool else CopyPath.sequential

/-- Claim C10: Configuration values are returned as raw strings with no
boolean coercion, so whenever the `multiprocessing` key holds any nonempty
string -- including the string `"False"` -- the truthiness test in
`run_pipeline` selects the pool path. -/
theorem multiprocessing_string_truthy (cfg : Config) (s : String)
    (hlook : configGet cfg "multiprocessing" = some s) (hne : s ≠ "") :
    configGetItem cfg "multiprocessing" = some s ∧
      copyBranch (configGet cfg "multiprocessing") = CopyPath.pool ∧
      copyBranch (some "False") = CopyPath.pool := by
  refine ⟨hlook, ?_, by decide⟩
  rw [hlook]
  have hemp : s.isEmpty = false := by
    rw [Bool.eq_false_iff]
    intro h
    exact hne ((String.isEmpty_iff s).mp h)
  simp [copyBranch, pyTruthy, hemp]

/-- Witness for C10 at a configuration storing `multiprocessing = False`. -/
theorem multiprocessing_string_truthy_witness :
    (configGet [("multiprocessing", "False")] "multiprocessing" = some "False" ∧
        "False" ≠ "") ∧
      (configGetItem [("multiprocessing", "False")] "multiprocessing" = some "False" ∧
        copyBranch (configGet [("multiprocessing", "False")] "multiprocessing") =
          CopyPath.pool ∧
        copyBranch (some "False") = CopyPath.pool) :=
  ⟨⟨by decide, by decide⟩,
    multiprocessing_string_truthy [("multiprocessing", "False")] "False"
      (by decide) (by decide)⟩

/-! ## Splitting text into lines

`chunks` is python's `text.split('\n')`: every `\n` separates two chunks,
so a text with `k` newlines yields `k + 1` chunks, empties included.
`splitNl` is iterating over an open file (`for line in f`) followed by
dropping each line's terminator: the final chunk is omitted when the text
ends in `\n`, and an empty text yields no lines. -/

/-- Python `text.split('\n')`. -/
def chunks : Line → List Line
  | [] => [[]]
  | c :: cs =>
    if c = '\n' then [] :: chunks cs
    else
      match chunks cs with
      | l :: ls => (c :: l) :: ls
      | [] => [[c]]

/-- The lines yielded by `for line in f` on a file containing `t`, with
each line's trailing `\n` removed. -/
def splitNl : Line → List Line
  | [] => []
  | c :: cs =>
    if c = '\n' then [] :: splitNl cs
    else
      match splitNl cs with
      | l :: ls => (c :: l) :: ls
      | [] => [[c]]

lemma chunks_ne_nil (s : Line) : chunks s ≠ [] := by
  match s with
  | [] => simp [chunks]
  | c :: cs =>
    rw [chunks]
    split
    · simp
    · split <;> simp

lemma chunks_append_newline (p r : Line) :
    chunks (p ++ '\n' :: r) = chunks p ++ chunks r := by
  induction p with
  | nil => simp [chunks]
  | cons c cs ih =>
    by_cases hc : c = '\n'
    · subst hc
      have h1 : chunks (('\n' :: cs) ++ '\n' :: r) = [] :: chunks (cs ++ '\n' :: r) := by
        rw [List.cons_append, chunks, if_pos rfl]
      have h2 : chunks ('\n' :: cs) = [] :: chunks cs := by
        rw [chunks, if_pos rfl]
      rw [h1, ih, h2, List.cons_append]
    · obtain ⟨l, ls, hcons⟩ := List.exists_cons_of_ne_nil (chunks_ne_nil cs)
      have h1 : chunks ((c :: cs) ++ '\n' :: r) = (c :: l) :: (ls ++ chunks r) := by
        rw [List.cons_append, chunks, if_neg hc, ih, hcons, List.cons_append]
      have h2 : chunks (c :: cs) = (c :: l) :: ls := by
        rw [chunks, if_neg hc, hcons]
      rw [h1, h2, List.cons_append]

lemma splitNl_append_newline (p r : Line) :
    splitNl (p ++ '\n' :: r) = chunks p ++ splitNl r := by
  induction p with
  | nil => simp [splitNl, chunks]
  | cons c cs ih =>
    by_cases hc : c = '\n'
    · subst hc
      have h1 : splitNl (('\n' :: cs) ++ '\n' :: r) = [] :: splitNl (cs ++ '\n' :: r) := by
        rw [List.cons_append, splitNl, if_pos rfl]
      have h2 : chunks ('\n' :: cs) = [] :: chunks cs := by
        rw [chunks, if_pos rfl]
      rw [h1, ih, h2, List.cons_append]
    · obtain ⟨l, ls, hcons⟩ := List.exists_cons_of_ne_nil (chunks_ne_nil cs)
      have h1 : splitNl ((c :: cs) ++ '\n' :: r) = (c :: l) :: (ls ++ splitNl r) := by
        rw [List.cons_append, splitNl, if_neg hc, ih, hcons, List.cons_append]
      have h2 : chunks (c :: cs) = (c :: l) :: ls := by
        rw [chunks, if_neg hc, hcons]
      rw [h1, h2, List.cons_append]

lemma mem_chunks_no_newline (s : Line) : ∀ c ∈ chunks s, '\n' ∉ c := by
  induction s with
  | nil => simp [chunks]
  | cons x xs ih =>
    intro c hc
    by_cases hx : x = '\n'
    · subst hx
      rw [chunks, if_pos rfl] at hc
      rcases List.mem_cons.mp hc with h | h
      · subst h; simp
      · exact ih c h
    · obtain ⟨l, ls, hcons⟩ := List.exists_cons_of_ne_nil (chunks_ne_nil xs)
      rw [chunks, if_neg hx, hcons] at hc
      rcases List.mem_cons.mp hc with h | h
      · subst h
        intro hmem
        rcases List.mem_cons.mp hmem with h' | h'
        · exact hx h'.symm
        · exact ih l (by rw [hcons]; exact List.mem_cons_self l ls) h'
      · exact ih c (by rw [hcons]; exact List.mem_cons_of_mem l h)

lemma chunks_of_no_newline (s : Line) (h : '\n' ∉ s) : chunks s = [s] := by
  induction s with
  | nil => rfl
  | cons x xs ih =>
    have hx : x ≠ '\n' := fun hx => h (hx ▸ List.mem_cons_self x xs)
    have hxs : '\n' ∉ xs := fun hm => h (List.mem_cons_of_mem x hm)
    rw [chunks, if_neg hx, ih hxs]

/-! ### `rstrip` facts -/

lemma head?_dropWhile (p : Char → Bool) :
    ∀ (l : Line) (a : Char), (l.dropWhile p).head? = some a → p a = false := by
  intro l
  induction l with
  | nil => intro a h; simp [List.dropWhile] at h
  | cons x xs ih =>
    intro a h
    rw [List.dropWhile_cons] at h
    by_cases hx : p x
    · rw [if_pos hx] at h
      exact ih a h
    · rw [if_neg hx] at h
      simp only [List.head?_cons, Option.some.injEq] at h
      subst h
      exact Bool.eq_false_iff.mpr hx

lemma rstrip_prefix_self (s : Line) : rstrip s <+: s := by
  have h := List.dropWhile_suffix (l := s.reverse) pyIsSpace
  have h2 : (s.reverse.dropWhile pyIsSpace).reverse <+: s.reverse.reverse :=
    List.reverse_prefix.mpr (by simpa using h)
  simpa [rstrip] using h2

lemma rstrip_getLast_not_space (s : Line) (c : Char)
    (h : (rstrip s).getLast? = some c) : pyIsSpace c = false := by
  rw [rstrip, List.getLast?_reverse] at h
  exact head?_dropWhile pyIsSpace s.reverse c h

lemma rstrip_eq_self (s : Line)
    (h : ∀ c, s.getLast? = some c → pyIsSpace c = false) : rstrip s = s := by
  cases hs : s.reverse with
  | nil =>
    have hnil : s = [] := by simpa using congrArg List.reverse hs
    subst hnil; rfl
  | cons x xs =>
    have hx : s.getLast? = some x := by
      rw [← List.head?_reverse, hs, List.head?_cons]
    have hxs : pyIsSpace x = false := h x hx
    rw [rstrip, hs, List.dropWhile_cons, if_neg (by simp [hxs]), ← hs,
      List.reverse_reverse]

/-! ## `HcpMaskingPipeline._create_input_text`
(`pipeline/hcp_masking_pipeline.py`, lines 373-398)

```
with open(self.input_text, 'w') as f:
    for subject in process_list:
        f.write(f'{subject.as_posix()}' + '\n')
with open(self.input_text, 'r') as f:
    input_list = [line.rstrip() for line in f]
process_list = list(map(str, process_list))
if sorted(input_list) == sorted(process_list):
    print('input_list matches process_list')
else:
    raise ValueError('input_list does not match process_list')
```

One absolute path per line, newline-terminated, then a read-back whose
lines are `rstrip`ped and compared against the scanned paths by
sorted-list equality. -/

/-- The manifest text written for `processList`: each path followed by a
newline. -/
def fileOfPaths (processList : List Line) : Line :=
  (processList.map (fun p => p ++ ['\n'])).flatten

/-- The read-back `[line.rstrip() for line in f]` on a file containing `t`. -/
def readLines (t : Line) : List Line :=
  (splitNl t).map rstrip

/-- Python `sorted` on a list of strings. -/
def pySorted (l : List Line) : List Line :=
  l.insertionSort (· ≤ ·)

/-- Embedding of `_create_input_text`: write the manifest, read it back, and raise
`ValueError` unless the sorted read-back equals the sorted process list. -/
def createInputText (processList : List Line) : Except String Unit :=
  let inputList := readLines (fileOfPaths processList)
  if pySorted inputList = pySorted processList then Except.ok ()
  else Except.error "input_list does not match process_list"

lemma pySorted_perm (l : List Line) : (pySorted l).Perm l :=
  List.perm_insertionSort _ l

lemma pySorted_sorted (l : List Line) : List.Sorted (· ≤ ·) (pySorted l) :=
  List.sorted_insertionSort _ l

lemma pySorted_eq_iff_perm (a b : List Line) :
    pySorted a = pySorted b ↔ a.Perm b := by
  constructor
  · intro h
    have hb : (pySorted a).Perm b := by rw [h]; exact pySorted_perm b
    exact (pySorted_perm a).symm.trans hb
  · intro h
    refine List.eq_of_perm_of_sorted ?_ (pySorted_sorted a) (pySorted_sorted b)
    exact (pySorted_perm a).trans (h.trans (pySorted_perm b).symm)

lemma readLines_fileOfPaths (processList : List Line) :
    readLines (fileOfPaths processList) =
      processList.flatMap (fun p => (chunks p).map rstrip) := by
  induction processList with
  | nil => rfl
  | cons p ps ih =>
    have hfile : fileOfPaths (p :: ps) = p ++ '\n' :: fileOfPaths ps := by
      simp [fileOfPaths, List.flatten_cons, List.append_assoc]
    rw [readLines, hfile, splitNl_append_newline, List.map_append, ← readLines, ih,
      List.flatMap_cons]

/-- Every line read back from a written manifest contains no newline and
has no trailing python whitespace. -/
lemma readLines_wellFormed (processList : List Line) (x : Line)
    (hx : x ∈ readLines (fileOfPaths processList)) :
    '\n' ∉ x ∧ ∀ c, x.getLast? = some c → pyIsSpace c = false := by
  rw [readLines_fileOfPaths] at hx
  obtain ⟨p, _, hxc⟩ := List.mem_flatMap.mp hx
  obtain ⟨ch, hch, hrfl⟩ := List.mem_map.mp hxc
  subst hrfl
  refine ⟨?_, fun c hc => rstrip_getLast_not_space ch c hc⟩
  intro hmem
  exact mem_chunks_no_newline p ch hch ((rstrip_prefix_self ch).subset hmem)

/-- When every path is its own single chunk and `rstrip`-fixed, the
read-back reproduces the process list verbatim. -/
lemma flatMap_chunks_collapse (processList : List Line)
    (hone : ∀ p ∈ processList, (chunks p).map rstrip = [p]) :
    processList.flatMap (fun p => (chunks p).map rstrip) = processList := by
  induction processList with
  | nil => rfl
  | cons p ps ih =>
    rw [List.flatMap_cons, hone p (List.mem_cons_self p ps),
      ih (fun q hq => hone q (List.mem_cons_of_mem p hq)), List.singleton_append]

/-- Claim C3: The manifest builder writes one path per line,
newline-terminated, reads the manifest back, and raises its integrity
error (`ValueError`) precisely when the set of lines read back differs from
the set of scanned paths; when the sets agree it returns normally, so a
mismatch never passes silently. -/
theorem manifest_roundtrip (processList : List Line) :
    (createInputText processList = Except.error "input_list does not match process_list" ↔
        (readLines (fileOfPaths processList)).toFinset ≠ processList.toFinset) ∧
      (createInputText processList = Except.ok () ↔
        (readLines (fileOfPaths processList)).toFinset = processList.toFinset) := by
  have hkey : pySorted (readLines (fileOfPaths processList)) = pySorted processList ↔
      (readLines (fileOfPaths processList)).toFinset = processList.toFinset := by
    constructor
    · intro h
      exact List.toFinset_eq_of_perm _ _ ((pySorted_eq_iff_perm _ _).mp h)
    · intro hset
      have hone : ∀ p ∈ processList, (chunks p).map rstrip = [p] := by
        intro p hp
        have hpin : p ∈ readLines (fileOfPaths processList) := by
          rw [← List.mem_toFinset] at hp
          rw [← hset] at hp
          exact List.mem_toFinset.mp hp
        obtain ⟨hnl, htrail⟩ := readLines_wellFormed processList p hpin
        rw [chunks_of_no_newline p hnl, List.map_cons, List.map_nil,
          rstrip_eq_self p htrail]
      have heq : readLines (fileOfPaths processList) = processList := by
        rw [readLines_fileOfPaths]
        exact flatMap_chunks_collapse processList hone
      rw [heq]
  constructor
  · constructor
    · intro herr hset
      rw [createInputText, if_pos (hkey.mpr hset)] at herr
      exact Except.noConfusion herr
    · intro hne
      rw [createInputText, if_neg (fun h => hne (hkey.mp h))]
  · constructor
    · intro hok
      by_cases h : pySorted (readLines (fileOfPaths processList)) = pySorted processList
      · exact hkey.mp h
      · rw [createInputText, if_neg h] at hok
        exact Except.noConfusion hok
    · intro hset
      rw [createInputText, if_pos (hkey.mpr hset)]

/-! ## `HcpMaskingPipeline._copy_logs_to_s3`
(`hcp/hcp_masking_pipeline.py`, lines 403-420)

```
log = self._get_logs_from_s3()
if log:
    log = log + self.log_loc.read_text()
else:
    log = self.log_loc.read_text()
log = '\n'.join(set(log.split('\n')))
self.log_loc.write_text(log)
```

The remote text (empty when no remote log exists) and the local text are
concatenated -- with no separator between them -- then split on `\n` and
deduplicated as a python `set` before re-upload.  Since `set` iteration
order is arbitrary and every claim is about the merged log *as a set of
lines*, the merge is modelled by the resulting set of lines; rejoining
with `\n` and resplitting reproduces exactly that set, because no line
contains `\n`.  (The `pipeline` variant's `_copy_logs_to_s3` performs no
merge at all: it only copies the local log to the bucket.) -/

/-- The concatenation `remote + local` guarded by `if log:` -- python truthiness of the
remote text. -/
def combineLogs (remote localLog : Line) : Line :=
  if remote.isEmpty then localLog else remote ++ localLog

/-- The set of lines of a log text, python `set(text.split('\n'))`. -/
def lineSet (t : Line) : Finset Line :=
  (chunks t).toFinset

/-- The set of lines of the merged, deduplicated, re-uploaded log. -/
def mergeLineSet (remote localLog : Line) : Finset Line :=
  lineSet (combineLogs remote localLog)

/-- A log text is empty or ends with a newline.  Every line the pipeline
itself appends is newline-terminated, but nothing forces the merged inputs
to be. -/
def nlTerminated (s : Line) : Prop :=
  s = [] ∨ s.getLast? = some '\n'

/-- Counterexample to claim C4: For the (not newline-terminated) logs `"a"` and
`"b"`, the merge concatenates them into the single line `"ab"`: the
distinct line `"a"` of the remote log is lost, the merge is not
commutative as a set of lines, and merging `"a"` with itself yields
`{"aa"}`, not the line set of `"a"` -- all three claimed properties fail
at once. -/
theorem runlog_merge_counterexample :
    ¬ ((∀ l ∈ lineSet ['a'] ∪ lineSet ['b'], l ∈ mergeLineSet ['a'] ['b']) ∧
        mergeLineSet ['a'] ['b'] = mergeLineSet ['b'] ['a'] ∧
        mergeLineSet ['a'] ['a'] = lineSet ['a']) := by
  decide

lemma nlTerminated_cases (s : Line) (h : nlTerminated s) :
    s = [] ∨ ∃ t, s = t ++ ['\n'] := by
  rcases h with h | h
  · exact Or.inl h
  · exact Or.inr ⟨s.dropLast, (List.dropLast_append_getLast? '\n' h).symm⟩

lemma lineSet_append_nl (t : Line) :
    lineSet (t ++ ['\n']) = (chunks t).toFinset ∪ {[]} := by
  have h : (t ++ ['\n'] : Line) = t ++ '\n' :: [] := rfl
  rw [lineSet, h, chunks_append_newline, List.toFinset_append]
  rfl

lemma lineSet_nlappend (t r : Line) :
    lineSet ((t ++ ['\n']) ++ r) = (chunks t).toFinset ∪ lineSet r := by
  have h : ((t ++ ['\n']) ++ r : Line) = t ++ '\n' :: r := by
    rw [List.append_assoc]; rfl
  rw [lineSet, h, chunks_append_newline, List.toFinset_append]
  rfl

lemma mergeLineSet_nil_left (b : Line) : mergeLineSet [] b = lineSet b := rfl

lemma mergeLineSet_ne_left (a b : Line) (ha : a ≠ []) :
    mergeLineSet a b = lineSet (a ++ b) := by
  rw [mergeLineSet, combineLogs, if_neg (by simpa using ha)]

lemma mem_lineSet_nil (l : Line) (h : l ∈ lineSet []) : l = [] := by
  simpa [lineSet, chunks] using h

lemma nil_mem_lineSet_nl (t : Line) : [] ∈ lineSet (t ++ ['\n']) := by
  rw [lineSet_append_nl]
  exact Finset.mem_union_right _ (Finset.mem_singleton_self [])

lemma mergeLineSet_self_nl (t : Line) :
    mergeLineSet (t ++ ['\n']) (t ++ ['\n']) = lineSet (t ++ ['\n']) := by
  rw [mergeLineSet_ne_left _ _ (by simp), lineSet_nlappend, lineSet_append_nl]
  ext l
  simp only [Finset.mem_union]
  tauto

/-- Claim C4 amended: Provided each of the two log texts is empty or
newline-terminated, the deduplicating merge preserves every distinct line
of both sources, is commutative as a set of lines, and merging a log with
itself yields exactly its own set of lines.  Without that proviso the last
line of the remote log concatenates with the first line of the local log
(see the counterexample). -/
theorem runlog_merge_set (a b : Line)
    (ha : nlTerminated a) (hb : nlTerminated b) :
    lineSet a ∪ lineSet b ⊆ mergeLineSet a b ∧
      mergeLineSet a b = mergeLineSet b a ∧
      mergeLineSet a a = lineSet a := by
  rcases nlTerminated_cases a ha with hae | ⟨ta, hta⟩ <;>
    rcases nlTerminated_cases b hb with hbe | ⟨tb, htb⟩
  · -- both logs empty
    subst hae hbe
    exact ⟨by decide, by decide, by decide⟩
  · -- empty remote, newline-terminated local
    subst hae htb
    refine ⟨?_, ?_, by decide⟩
    · rw [mergeLineSet_nil_left]
      intro l hl
      rcases Finset.mem_union.mp hl with h | h
      · rw [mem_lineSet_nil l h]
        exact nil_mem_lineSet_nl tb
      · exact h
    · rw [mergeLineSet_nil_left, mergeLineSet_ne_left _ _ (by simp),
        List.append_nil]
  · -- newline-terminated remote, empty local
    subst hta hbe
    refine ⟨?_, ?_, mergeLineSet_self_nl ta⟩
    · rw [mergeLineSet_ne_left _ _ (by simp), List.append_nil]
      intro l hl
      rcases Finset.mem_union.mp hl with h | h
      · exact h
      · rw [mem_lineSet_nil l h]
        exact nil_mem_lineSet_nl ta
    · rw [mergeLineSet_ne_left _ _ (by simp), List.append_nil,
        mergeLineSet_nil_left]
  · -- both nonempty and newline-terminated
    subst hta htb
    refine ⟨?_, ?_, mergeLineSet_self_nl ta⟩
    · rw [mergeLineSet_ne_left _ _ (by simp), lineSet_nlappend,
        lineSet_append_nl, lineSet_append_nl]
      intro l hl
      simp only [Finset.mem_union] at hl ⊢
      tauto
    · rw [mergeLineSet_ne_left _ _ (by simp), mergeLineSet_ne_left _ _ (by simp),
        lineSet_nlappend, lineSet_nlappend, lineSet_append_nl, lineSet_append_nl]
      ext l
      simp only [Finset.mem_union]
      tauto

/-- Witness for C4's amended claim on the newline-terminated logs `"a\n"`
and `"b\n"`. -/
theorem runlog_merge_set_witness :
    (nlTerminated ['a', '\n'] ∧ nlTerminated ['b', '\n']) ∧
      (lineSet ['a', '\n'] ∪ lineSet ['b', '\n'] ⊆
          mergeLineSet ['a', '\n'] ['b', '\n'] ∧
        mergeLineSet ['a', '\n'] ['b', '\n'] = mergeLineSet ['b', '\n'] ['a', '\n'] ∧
        mergeLineSet ['a', '\n'] ['a', '\n'] = lineSet ['a', '\n']) :=
  ⟨⟨Or.inr (by decide), Or.inr (by decide)⟩,
    runlog_merge_set ['a', '\n'] ['b', '\n'] (Or.inr (by decide)) (Or.inr (by decide))⟩

/-! ## The batch body of `run_pipeline` as an event trace
(`pipeline/hcp_masking_pipeline.py`, lines 562-617)

One iteration of the `while` loop performs, in program order: the per-
subject downloads, `_create_input_text`, `_run_cnn_masking`, the per-
subject `_move_subject_data_to_processed`, `_cleanup_additional_files`,
the per-subject uploads, `_move_additional_files_to_s3`, the per-subject
verify-and-log loop, and finally `_delete_data`.  The trace below records
that order for the sequential (non-multiprocessing) path; `verify` is the
oracle for `_verify_subject_data_in_s3`, whose boolean decides which
message `_log` appends. -/

/-- The observable events of one batch iteration. -/
inductive PipelineEvent : Type
  | awsCopyFrom (subject : Line) (dry : Bool)
  | writeInputText
  | runMasking
  | moveToProcessed (subject : Line)
  | cleanupAdditional
  | awsMoveTo (subject : Line) (dry : Bool)
  | awsMoveAdditional (dry : Bool)
  | logOutcome (subject : Line) (success : Bool)
  | deleteData
deriving DecidableEq

/-- The events of one iteration of the `while` loop of `run_pipeline`, in
program order. -/
def batchEvents (dry : Bool) (verify : Line → Bool) (batch : List Line) :
    List PipelineEvent :=
  batch.map (fun s => PipelineEvent.awsCopyFrom s dry) ++
    [PipelineEvent.writeInputText, PipelineEvent.runMasking] ++
    batch.map PipelineEvent.moveToProcessed ++
    [PipelineEvent.cleanupAdditional] ++
    batch.map (fun s => PipelineEvent.awsMoveTo s dry) ++
    [PipelineEvent.awsMoveAdditional dry] ++
    batch.map (fun s => PipelineEvent.logOutcome s (verify s)) ++
    [PipelineEvent.deleteData]

/-- The full run: the batch bodies of `run_pipeline`, batch after batch. -/
def pipelineEvents (dry : Bool) (verify : Line → Bool) (subjects : List Line)
    (b : Nat) : List PipelineEvent :=
  (runBatches subjects b).flatMap (batchEvents dry verify)

/-- Claim C8: In every batch iteration of `run_pipeline`, an outcome is
logged for every subject of the batch before the batch's local working
storage is deleted: the iteration's trace ends with its single
`deleteData` event, the log event of every batch subject lies strictly
before it, and no deletion occurs earlier in the iteration. -/
theorem log_before_delete (dry : Bool) (verify : Line → Bool)
    (subjects : List Line) (b : Nat) (batch : List Line)
    (_hbatch : batch ∈ runBatches subjects b) :
    ∃ pre, batchEvents dry verify batch = pre ++ [PipelineEvent.deleteData] ∧
      (∀ s ∈ batch, PipelineEvent.logOutcome s (verify s) ∈ pre) ∧
      PipelineEvent.deleteData ∉ pre := by
  refine ⟨batch.map (fun s => PipelineEvent.awsCopyFrom s dry) ++
    [PipelineEvent.writeInputText, PipelineEvent.runMasking] ++
    batch.map PipelineEvent.moveToProcessed ++
    [PipelineEvent.cleanupAdditional] ++
    batch.map (fun s => PipelineEvent.awsMoveTo s dry) ++
    [PipelineEvent.awsMoveAdditional dry] ++
    batch.map (fun s => PipelineEvent.logOutcome s (verify s)), ?_, ?_, ?_⟩
  · simp [batchEvents, List.append_assoc]
  · intro s hs
    simp only [List.mem_append]
    exact Or.inr (List.mem_map.mpr ⟨s, hs, rfl⟩)
  · simp only [List.mem_append, List.mem_map, List.mem_cons, List.mem_singleton]
    push_neg
    refine ⟨⟨⟨⟨⟨⟨fun s _ => by simp, by simp⟩, fun s _ => by simp⟩, by simp⟩,
      fun s _ => by simp⟩, by simp⟩, fun s _ => by simp⟩

/-- Witness for C8 on the backlog `[a, b]` with batch size 2: the single
batch `[a, b]` is a batch of the run and the theorem applies. -/
theorem log_before_delete_witness :
    [['a'], ['b']] ∈ runBatches [['a'], ['b']] 2 ∧
      ∃ pre, batchEvents false (fun _ => true) [['a'], ['b']] =
          pre ++ [PipelineEvent.deleteData] ∧
        (∀ s ∈ [['a'], ['b']], PipelineEvent.logOutcome s true ∈ pre) ∧
        PipelineEvent.deleteData ∉ pre :=
  ⟨by decide,
    log_before_delete false (fun _ => true) [['a'], ['b']] 2 [['a'], ['b']]
      (by decide)⟩

/-! ## Local filesystem effects of one batch, and `dry_run`
(`pipeline/hcp_masking_pipeline.py`: `run_pipeline` lines 562-617,
`_move_subject_data_to_processed` 619-637, `_cleanup_additional_files`
639-671, `_delete_data` 499-506)

The local state a batch iteration mutates: the per-subject working
directories under `hcp_data_root/<group>`, the per-subject directories
under `hcp_data_root/processed/<group>`, the additional-files directory,
the manifest file and the run log.  Every mutation below is performed by
python code (`shutil.move`, `file.unlink`, `shutil.rmtree`, `open(...,
'w')`, `logging.info`) that never consults `dry_run`; `dry_run` reaches
only the shelled-out `aws` transfer commands, where it appends `--dryrun`.
The `aws` commands' own effects (remote copies, and `aws s3 mv` removing
its local source) happen outside the python process and are modelled as
the emitted commands themselves. -/

/-- The local state one batch iteration mutates.  Directories are listed
as `(name, files)` pairs. -/
structure BatchFS where
  working : List (Line × List Line)
  processed : List (Line × List Line)
  additional : List Line
  inputText : List Line
  logText : List Line
deriving DecidableEq

/-- A command shelled out by one batch iteration. -/
inductive Cmd : Type
  | ls (path : Line)
  | cpFrom (subject : Line) (dry : Bool)
  | mvTo (subject : Line) (dry : Bool)
  | mvAdditional (dry : Bool)
  | masking
deriving DecidableEq

/-- Is this one of the `aws` transfer commands (`aws s3 cp` / `aws s3
mv`)?  `aws s3 ls` and the masking script are not transfers. -/
def isTransfer : Cmd → Bool
  | Cmd.cpFrom _ _ => true
  | Cmd.mvTo _ _ => true
  | Cmd.mvAdditional _ => true
  | _ => false

/-- The `--dryrun` flag carried by a command, when it can carry one. -/
def dryFlag : Cmd → Option Bool
  | Cmd.cpFrom _ d => some d
  | Cmd.mvTo _ d => some d
  | Cmd.mvAdditional d => some d
  | _ => none

/-- Embedding of `_move_subject_data_to_processed`: `shutil.move` of the subject's
working directory into the processed area (unconditional on `dry_run`). -/
def moveSubjectToProcessed (s : Line) (fs : BatchFS) : BatchFS :=
  { fs with
    working := fs.working.filter (fun e => decide (e.1 ≠ s)),
    processed := fs.processed ++ fs.working.filter (fun e => decide (e.1 = s)) }

/-- The scratch file `_cleanup_additional_files` deletes outright. -/
def processIdFile : Line :=
  ['p', 'r', 'o', 'c', 'e', 's', 's', '_', 'i', 'd', '.', 't', 'x', 't']

/-- The test `str(file.as_uri()).endswith(tuple(self.allowed_files))`. -/
def endsWithAllowed (allowed : List Line) (file : Line) : Bool :=
  allowed.any (fun suffix => suffix.isSuffixOf file)

/-- Embedding of `_cleanup_additional_files`: in every processed subject directory,
delete `process_id.txt`, move every file not ending in an allowed suffix
into the additional-files directory, keep the rest (unconditional on
`dry_run`). -/
def cleanupAdditionalFiles (allowed : List Line) (fs : BatchFS) : BatchFS :=
  { fs with
    processed := fs.processed.map (fun e =>
      (e.1, e.2.filter (fun f =>
        decide (f ≠ processIdFile) && endsWithAllowed allowed f))),
    additional := fs.additional ++
      (fs.processed.map (fun e =>
        e.2.filter (fun f =>
          decide (f ≠ processIdFile) && !endsWithAllowed allowed f))).flatten }

/-- Embedding of `_delete_data`: `shutil.rmtree` of every directory under
`hcp_data_root` -- both the working and the processed area
(unconditional on `dry_run`). -/
def deleteData (fs : BatchFS) : BatchFS :=
  { fs with working := [], processed := [] }

/-- The manifest write inside `_create_input_text`: the manifest lists every working file
matching `*<file_substring>.nii.gz` (unconditional on `dry_run`). -/
def writeManifest (niiSuffix : Line) (fs : BatchFS) : BatchFS :=
  { fs with inputText :=
      (fs.working.map (fun e => e.2.filter (fun f => niiSuffix.isSuffixOf f))).flatten }

/-- One outcome line appended by `_log` during verification. -/
def outcomeLine (s : Line) (ok : Bool) : Line :=
  (if ok then ['o', 'k', ' '] else ['f', 'a', 'i', 'l', ' ']) ++ s

/-- Embedding of `_move_subject_data_from_s3` per subject: an `aws s3 ls` existence
check, then -- only when the path exists -- an `aws s3 cp` carrying
`--dryrun` exactly when `dry_run` is set. -/
def downloadCmds (dry : Bool) (remoteHas : Line → Bool) (batch : List Line) :
    List Cmd :=
  batch.flatMap (fun s =>
    Cmd.ls s :: if remoteHas s then [Cmd.cpFrom s dry] else [])

/-- Embedding of `_move_subject_data_to_s3` per subject: an existence check, then --
only when the processed path exists -- an `aws s3 mv` carrying `--dryrun`
exactly when `dry_run` is set. -/
def uploadCmds (dry : Bool) (processedHas : Line → Bool) (batch : List Line) :
    List Cmd :=
  batch.flatMap (fun s =>
    Cmd.ls s :: if processedHas s then [Cmd.mvTo s dry] else [])

/-- Embedding of `_verify_subject_data_in_s3`: check the expected remote files one by
one, stopping at the first missing one; every check is an `aws s3 ls`. -/
def verifyFiles (fileExists : Line → Bool) : List Line → List Cmd × Bool
  | [] => ([], true)
  | f :: rest =>
    if fileExists f then
      let r := verifyFiles fileExists rest
      (Cmd.ls f :: r.1, r.2)
    else ([Cmd.ls f], false)

/-- The expected remote files of a subject: one per allowed suffix. -/
def expectedFiles (allowed : List Line) (s : Line) : List Line :=
  allowed.map (fun suffix => s ++ suffix)

/-- The verify-and-log loop of `run_pipeline` (lines 604-611): per
subject, verification existence checks followed by an unconditional local
log append. -/
def verifyAndLog (fileExists : Line → Bool) (allowed : List Line) :
    List Line → BatchFS → BatchFS × List Cmd
  | [], fs => (fs, [])
  | s :: rest, fs =>
    let v := verifyFiles fileExists (expectedFiles allowed s)
    let fs' := { fs with logText := fs.logText ++ [outcomeLine s v.2] }
    let r := verifyAndLog fileExists allowed rest fs'
    (r.1, v.1 ++ r.2)

/-- One iteration of the `while` loop of `run_pipeline`, as its local
state transformation together with the commands it shells out, in program
order.  `dry` is threaded only into the transfer commands; every local
mutation is applied unconditionally, exactly as in the source. -/
def runBatchLocal (dry : Bool) (remoteHas processedHas fileExists : Line → Bool)
    (addExists : Bool) (allowed : List Line) (niiSuffix : Line)
    (batch : List Line) (fs : BatchFS) : BatchFS × List Cmd :=
  let dl := downloadCmds dry remoteHas batch
  let fs1 := writeManifest niiSuffix fs
  let fs2 := batch.foldl (fun acc s => moveSubjectToProcessed s acc) fs1
  let fs3 := cleanupAdditionalFiles allowed fs2
  let ul := uploadCmds dry processedHas batch
  let ac := if addExists then [Cmd.mvAdditional dry] else []
  let vl := verifyAndLog fileExists allowed batch fs3
  (deleteData vl.1, dl ++ [Cmd.masking] ++ ul ++ ac ++ vl.2)

lemma verifyFiles_cmds_ls (fileExists : Line → Bool) :
    ∀ (files : List Line) (c : Cmd), c ∈ (verifyFiles fileExists files).1 →
      ∃ f, c = Cmd.ls f := by
  intro files
  induction files with
  | nil => intro c hc; simp [verifyFiles] at hc
  | cons f rest ih =>
    intro c hc
    rw [verifyFiles] at hc
    by_cases hf : fileExists f
    · rw [if_pos hf] at hc
      rcases List.mem_cons.mp hc with h | h
      · exact ⟨f, h⟩
      · exact ih c h
    · rw [if_neg hf] at hc
      simp only [List.mem_singleton] at hc
      exact ⟨f, hc⟩

lemma verifyAndLog_cmds_ls (fileExists : Line → Bool) (allowed : List Line) :
    ∀ (batch : List Line) (fs : BatchFS) (c : Cmd),
      c ∈ (verifyAndLog fileExists allowed batch fs).2 → ∃ f, c = Cmd.ls f := by
  intro batch
  induction batch with
  | nil => intro fs c hc; simp [verifyAndLog] at hc
  | cons s rest ih =>
    intro fs c hc
    rw [verifyAndLog] at hc
    rcases List.mem_append.mp hc with h | h
    · exact verifyFiles_cmds_ls fileExists _ c h
    · exact ih _ c h

lemma mem_working_foldl_move :
    ∀ (batch : List Line) (fs : BatchFS) (e : Line × List Line),
      e ∈ (batch.foldl (fun acc s => moveSubjectToProcessed s acc) fs).working →
        e ∈ fs.working ∧ ∀ s ∈ batch, e.1 ≠ s := by
  intro batch
  induction batch with
  | nil => intro fs e he; exact ⟨he, by simp⟩
  | cons s rest ih =>
    intro fs e he
    rw [List.foldl_cons] at he
    obtain ⟨he', hrest⟩ := ih (moveSubjectToProcessed s fs) e he
    rw [moveSubjectToProcessed] at he'
    simp only [List.mem_filter, decide_eq_true_eq] at he'
    refine ⟨he'.1, ?_⟩
    intro s' hs'
    rcases List.mem_cons.mp hs' with h | h
    · exact h ▸ he'.2
    · exact hrest s' h

lemma processed_mono_move (s : Line) (fs : BatchFS) (e : Line × List Line)
    (he : e ∈ fs.processed) : e ∈ (moveSubjectToProcessed s fs).processed := by
  rw [moveSubjectToProcessed]
  exact List.mem_append_left _ he

lemma processed_mono_foldl_move :
    ∀ (batch : List Line) (fs : BatchFS) (e : Line × List Line),
      e ∈ fs.processed →
        e ∈ (batch.foldl (fun acc s => moveSubjectToProcessed s acc) fs).processed := by
  intro batch
  induction batch with
  | nil => intro fs e he; exact he
  | cons s rest ih =>
    intro fs e he
    rw [List.foldl_cons]
    exact ih _ e (processed_mono_move s fs e he)

lemma mem_processed_foldl_move :
    ∀ (batch : List Line) (fs : BatchFS) (e : Line × List Line),
      e ∈ fs.working → e.1 ∈ batch →
        e ∈ (batch.foldl (fun acc s => moveSubjectToProcessed s acc) fs).processed := by
  intro batch
  induction batch with
  | nil => intro fs e _ hmem; simp at hmem
  | cons s rest ih =>
    intro fs e he hmem
    rw [List.foldl_cons]
    by_cases hes : e.1 = s
    · refine processed_mono_foldl_move rest _ e ?_
      rw [moveSubjectToProcessed]
      refine List.mem_append_right _ ?_
      rw [List.mem_filter]
      exact ⟨he, by simp [hes]⟩
    · refine ih _ e ?_ ?_
      · rw [moveSubjectToProcessed]
        rw [List.mem_filter]
        exact ⟨he, by simp [hes]⟩
      · rcases List.mem_cons.mp hmem with h | h
        · exact absurd h hes
        · exact h

/-- Claim C9: With `dry_run` set, only the `aws` transfer commands receive
the `--dryrun` flag (the `ls` checks and the masking invocation carry
none), and every local filesystem mutation of the batch iteration occurs
unchanged: the resulting local state is identical to a live run's, each
batch subject's working directory is moved into the processed area before
cleanup, cleanup keeps only allowed-suffix files (deleting
`process_id.txt` and routing every other non-allowed file into the
additional-files directory), and at the end of the iteration every
directory under `hcp_data_root` -- working and processed -- is deleted. -/
theorem dry_run_frame (remoteHas processedHas fileExists : Line → Bool)
    (addExists : Bool) (allowed : List Line) (niiSuffix : Line)
    (batch : List Line) (fs : BatchFS) :
    ((runBatchLocal true remoteHas processedHas fileExists addExists allowed
        niiSuffix batch fs).1 =
      (runBatchLocal false remoteHas processedHas fileExists addExists allowed
        niiSuffix batch fs).1) ∧
    (∀ dry : Bool, ∀ c ∈ (runBatchLocal dry remoteHas processedHas fileExists
        addExists allowed niiSuffix batch fs).2,
      (isTransfer c = true → dryFlag c = some dry) ∧
        (isTransfer c = false → dryFlag c = none)) ∧
    (∀ dry : Bool,
      (runBatchLocal dry remoteHas processedHas fileExists addExists allowed
          niiSuffix batch fs).1.working = [] ∧
        (runBatchLocal dry remoteHas processedHas fileExists addExists allowed
          niiSuffix batch fs).1.processed = []) ∧
    (∀ e ∈ (batch.foldl (fun acc s => moveSubjectToProcessed s acc)
        (writeManifest niiSuffix fs)).working, ∀ s ∈ batch, e.1 ≠ s) ∧
    (∀ e ∈ (writeManifest niiSuffix fs).working, e.1 ∈ batch →
      e ∈ (batch.foldl (fun acc s => moveSubjectToProcessed s acc)
        (writeManifest niiSuffix fs)).processed) ∧
    (∀ fs' : BatchFS, ∀ e ∈ (cleanupAdditionalFiles allowed fs').processed,
      ∀ f ∈ e.2, f ≠ processIdFile ∧ endsWithAllowed allowed f = true) ∧
    (∀ fs' : BatchFS, ∀ d fls, (d, fls) ∈ fs'.processed → ∀ f ∈ fls,
      f ≠ processIdFile → endsWithAllowed allowed f = false →
        f ∈ (cleanupAdditionalFiles allowed fs').additional) := by
  refine ⟨rfl, ?_, ?_, ?_, ?_, ?_, ?_⟩
  · intro dry c hc
    simp only [runBatchLocal, List.mem_append] at hc
    rcases hc with (((hdl | hm) | hul) | hac) | hvl
    · rw [downloadCmds] at hdl
      obtain ⟨s, _, hmem⟩ := List.mem_flatMap.mp hdl
      rcases List.mem_cons.mp hmem with h | h
      · subst h; exact ⟨by simp [isTransfer], by simp [dryFlag]⟩
      · by_cases hr : remoteHas s
        · rw [if_pos hr] at h
          simp only [List.mem_singleton] at h
          subst h; exact ⟨by simp [dryFlag], by simp [isTransfer]⟩
        · rw [if_neg hr] at h
          simp at h
    · simp only [List.mem_singleton] at hm
      subst hm; exact ⟨by simp [isTransfer], by simp [dryFlag]⟩
    · rw [uploadCmds] at hul
      obtain ⟨s, _, hmem⟩ := List.mem_flatMap.mp hul
      rcases List.mem_cons.mp hmem with h | h
      · subst h; exact ⟨by simp [isTransfer], by simp [dryFlag]⟩
      · by_cases hr : processedHas s
        · rw [if_pos hr] at h
          simp only [List.mem_singleton] at h
          subst h; exact ⟨by simp [dryFlag], by simp [isTransfer]⟩
        · rw [if_neg hr] at h
          simp at h
    · by_cases ha : addExists
      · rw [if_pos ha] at hac
        simp only [List.mem_singleton] at hac
        subst hac; exact ⟨by simp [dryFlag], by simp [isTransfer]⟩
      · rw [if_neg ha] at hac
        simp at hac
    · obtain ⟨f, hf⟩ := verifyAndLog_cmds_ls fileExists allowed batch _ c hvl
      subst hf; exact ⟨by simp [isTransfer], by simp [dryFlag]⟩
  · intro dry
    exact ⟨rfl, rfl⟩
  · intro e he s hs
    exact (mem_working_foldl_move batch _ e he).2 s hs
  · intro e he hmem
    exact mem_processed_foldl_move batch _ e he hmem
  · intro fs' e he f hf
    rw [cleanupAdditionalFiles] at he
    simp only [List.mem_map] at he
    obtain ⟨e0, _, hrfl⟩ := he
    subst hrfl
    simp only [List.mem_filter, Bool.and_eq_true, decide_eq_true_eq] at hf
    exact ⟨hf.2.1, hf.2.2⟩
  · intro fs' d fls hmem f hf hpid hall
    rw [cleanupAdditionalFiles]
    simp only [List.mem_append, List.mem_flatten, List.mem_map]
    refine Or.inr ⟨fls.filter (fun f =>
      decide (f ≠ processIdFile) && !endsWithAllowed allowed f), ⟨(d, fls), hmem, rfl⟩, ?_⟩
    rw [List.mem_filter]
    exact ⟨hf, by simp [hpid, hall]⟩

/-- Witness for C9 at a concrete one-subject batch and nonempty starting
state. -/
theorem dry_run_frame_witness :
    ((runBatchLocal true (fun _ => true) (fun _ => true) (fun _ => true) true
        [['x']] ['n'] [['s']] ⟨[(['s'], [['n']])], [], [], [], []⟩).1 =
      (runBatchLocal false (fun _ => true) (fun _ => true) (fun _ => true) true
        [['x']] ['n'] [['s']] ⟨[(['s'], [['n']])], [], [], [], []⟩).1) ∧
      (∀ dry : Bool,
        (runBatchLocal dry (fun _ => true) (fun _ => true) (fun _ => true) true
            [['x']] ['n'] [['s']] ⟨[(['s'], [['n']])], [], [], [], []⟩).1.working = [] ∧
          (runBatchLocal dry (fun _ => true) (fun _ => true) (fun _ => true) true
            [['x']] ['n'] [['s']] ⟨[(['s'], [['n']])], [], [], [], []⟩).1.processed = []) :=
  ⟨(dry_run_frame (fun _ => true) (fun _ => true) (fun _ => true) true [['x']] ['n']
      [['s']] ⟨[(['s'], [['n']])], [], [], [], []⟩).1,
    (dry_run_frame (fun _ => true) (fun _ => true) (fun _ => true) true [['x']] ['n']
      [['s']] ⟨[(['s'], [['n']])], [], [], [], []⟩).2.2.1⟩

end HcpPipeline
